import Mathlib

set_option maxRecDepth 100000

/-!
# Verification of the `Keychain` password manager (src/password-manager.js)

This file is a shallow embedding of the `Keychain` class from
`src/password-manager.js` together with proofs about its behaviour.

Modelling conventions for the external primitives used by the source
(`crypto.webcrypto.subtle`, `TextEncoder`/`TextDecoder`, `JSON`):

* **PBKDF2** (`deriveKey`): an ideal deterministic KDF.  The derived key is
  represented by the pair `(password, salt)` it was derived from; real PBKDF2
  is deterministic and (idealised) collision free, which is all the code
  relies on.
* **AES-GCM** (`subtle.encrypt` / `subtle.decrypt`): ideal authenticated
  encryption.  A ciphertext is the plaintext bytes followed by a 16-entry
  authentication block whose last entry is an injective (hence unforgeable in
  the model) encoding of `(key, iv, plaintext)`.  Decryption succeeds exactly
  on genuine ciphertexts produced under the same key and iv, mirroring GCM's
  tag check; the ciphertext length is `plaintext length + 16` exactly as for
  AES-GCM (one tag slot holds an unbounded natural, standing for the 16-byte
  tag of the real cipher).
* **SHA-256** (`computeChecksum`): an ideal collision-free digest, modelled as
  an injective function from strings to naturals.  The claims under study
  depend only on determinism and collision resistance of the digest.
* **`JSON.stringify`**: modelled concretely, character by character, producing
  the exact text the source produces (object key order is insertion order:
  `kvs`, `encryptedKVS`, `salt`; no whitespace).
* **`JSON.parse`** (in `load`): modelled as a concrete parser for the grammar
  of blobs this application produces; it fails (JS `SyntaxError`) on anything
  else.
* Randomness (`crypto.getRandomValues`): the random bytes are passed in as
  explicit oracle arguments (`saltRandom`, `ivRandom`), so every theorem
  quantifies over them.
* Text encoding: one list entry per character (`Char.toNat`), standing for
  the byte sequence of the real `TextEncoder` (identical for ASCII data).

Fallible operations return `Option`/`Except`; the thrown JS errors of `load`
become the `LoadError` type.
-/

/-! ## A small verified codec: positional encodings into `ℕ`

Used to realise the ideal-crypto primitives (GCM tag, SHA-256) as computable
injective functions.  `digitsF` is a fuel-based base-`b` digit expansion
(little-endian), `ofDigits` its inverse; lists of naturals are flattened with
the digit `9` as separator between base-`9` digit groups and read back in
base `10`, which keeps encodings linear-sized and kernel-computable. -/

def digitsF (b : ℕ) : ℕ → ℕ → List ℕ
  | 0, _ => []
  | f + 1, n => if n = 0 then [] else n % b :: digitsF b f (n / b)

def ofDigits (b : ℕ) : List ℕ → ℕ
  | [] => 0
  | d :: ds => d + b * ofDigits b ds

theorem ofDigits_digitsF {b : ℕ} (hb : 2 ≤ b) :
    ∀ f n, n ≤ f → ofDigits b (digitsF b f n) = n := by
  intro f
  induction f with
  | zero => intro n hn; interval_cases n; simp [digitsF, ofDigits]
  | succ f ih =>
    intro n hn
    by_cases h0 : n = 0
    · simp [digitsF, h0, ofDigits]
    · have hdiv : n / b < n := Nat.div_lt_self (Nat.pos_of_ne_zero h0) (by omega)
      have : n / b ≤ f := by omega
      simp only [digitsF, h0, if_false, ofDigits, ih _ this]
      exact Nat.mod_add_div n b

theorem digitsF_lt_base {b : ℕ} (hb : 0 < b) :
    ∀ f n d, d ∈ digitsF b f n → d < b := by
  intro f
  induction f with
  | zero => intro n d hd; simp [digitsF] at hd
  | succ f ih =>
    intro n d hd
    by_cases h0 : n = 0
    · simp [digitsF, h0] at hd
    · simp only [digitsF, h0, if_false, List.mem_cons] at hd
      rcases hd with h | h
      · subst h; exact Nat.mod_lt _ hb
      · exact ih _ _ h

/-- Last element of a list of naturals, defaulting to `9` (a nonzero value)
on the empty list; used to state digit-string canonicality. -/
def paddedLast : List ℕ → ℕ
  | [] => 9
  | [x] => x
  | _ :: x :: xs => paddedLast (x :: xs)

theorem paddedLast_cons (a : ℕ) (l : List ℕ) (h : l ≠ []) :
    paddedLast (a :: l) = paddedLast l := by
  cases l with
  | nil => exact absurd rfl h
  | cons x xs => rfl

theorem paddedLast_append_cons (xs : List ℕ) (y : ℕ) (ys : List ℕ) :
    paddedLast (xs ++ y :: ys) = paddedLast (y :: ys) := by
  induction xs with
  | nil => rfl
  | cons a as ih =>
    rw [List.cons_append, paddedLast_cons _ _ (by simp), ih]

theorem ofDigits_ne_zero {b : ℕ} (hb : 2 ≤ b) :
    ∀ J, J ≠ [] → paddedLast J ≠ 0 → ofDigits b J ≠ 0 := by
  intro J
  induction J with
  | nil => intro h; exact absurd rfl h
  | cons d ds ih =>
    intro _ hlast
    by_cases hds : ds = []
    · subst hds
      simpa [ofDigits, paddedLast] using hlast
    · have := ih hds (by rwa [paddedLast_cons _ _ hds] at hlast)
      have hpos : 0 < ofDigits b ds := Nat.pos_of_ne_zero this
      simp only [ofDigits]
      have : b * ofDigits b ds ≥ b := Nat.le_mul_of_pos_right b hpos
      omega

theorem digitsF_ofDigits {b : ℕ} (hb : 2 ≤ b) :
    ∀ J f, (∀ d ∈ J, d < b) → paddedLast J ≠ 0 → ofDigits b J ≤ f →
      digitsF b f (ofDigits b J) = J := by
  intro J
  induction J with
  | nil =>
    intro f _ _ _
    cases f <;> simp [ofDigits, digitsF]
  | cons d ds ih =>
    intro f hlt hlast hf
    by_cases hds : ds = []
    · subst hds
      have hd0 : d ≠ 0 := by simpa [paddedLast] using hlast
      have hdb : d < b := hlt d (by simp)
      simp only [ofDigits, Nat.mul_zero, Nat.add_zero] at hf ⊢
      cases f with
      | zero => omega
      | succ f =>
        simp only [digitsF, hd0, if_false]
        rw [Nat.mod_eq_of_lt hdb, Nat.div_eq_of_lt hdb]
        cases f <;> simp [digitsF]
    · have hlast' : paddedLast ds ≠ 0 := by
        rwa [paddedLast_cons _ _ hds] at hlast
      have ho : ofDigits b ds ≠ 0 := ofDigits_ne_zero hb ds hds hlast'
      have hopos : 0 < ofDigits b ds := Nat.pos_of_ne_zero ho
      have hdb : d < b := hlt d (by simp)
      have hval : ofDigits b (d :: ds) = d + b * ofDigits b ds := rfl
      have hvpos : 0 < ofDigits b (d :: ds) := by
        rw [hval]; have := Nat.le_mul_of_pos_right b hopos; omega
      cases f with
      | zero => omega
      | succ f =>
        have hne : ofDigits b (d :: ds) ≠ 0 := by omega
        simp only [digitsF, hne, if_false]
        rw [hval, Nat.add_mul_mod_self_left, Nat.mod_eq_of_lt hdb,
          Nat.add_mul_div_left _ _ (by omega : 0 < b), Nat.div_eq_of_lt hdb,
          Nat.zero_add]
        congr 1
        refine ih f (fun x hx => hlt x (by simp [hx])) hlast' ?_
        have : b * ofDigits b ds ≥ 2 * ofDigits b ds := by
          exact Nat.mul_le_mul_right _ hb
        omega

/-! ### Separator-based flattening of `List ℕ` into a single `ℕ` -/

def joinSep : List (List ℕ) → List ℕ
  | [] => []
  | g :: gs => g ++ 9 :: joinSep gs

def splitSep : List ℕ → List (List ℕ)
  | [] => []
  | x :: r =>
    if x = 9 then [] :: splitSep r
    else
      match splitSep r with
      | [] => [[x]]
      | g :: gs => (x :: g) :: gs

theorem splitSep_append (g : List ℕ) (rest : List ℕ) (hg : ∀ x ∈ g, x ≠ 9) :
    splitSep (g ++ 9 :: rest) = g :: splitSep rest := by
  induction g with
  | nil => simp [splitSep]
  | cons x xs ih =>
    have hx : x ≠ 9 := hg x (by simp)
    have ihx := ih (fun y hy => hg y (by simp [hy]))
    simp only [List.cons_append, splitSep, hx, if_false]
    rw [show splitSep (xs.append (9 :: rest)) = xs :: splitSep rest from ihx]

theorem splitSep_joinSep (gs : List (List ℕ)) (h : ∀ g ∈ gs, ∀ x ∈ g, x ≠ 9) :
    splitSep (joinSep gs) = gs := by
  induction gs with
  | nil => rfl
  | cons g gs ih =>
    simp only [joinSep]
    rw [splitSep_append g _ (h g (by simp)), ih (fun g' hg' => h g' (by simp [hg']))]

theorem paddedLast_joinSep (gs : List (List ℕ)) (h : gs ≠ []) :
    paddedLast (joinSep gs) = 9 := by
  induction gs with
  | nil => exact absurd rfl h
  | cons g gs ih =>
    simp only [joinSep]
    rw [paddedLast_append_cons]
    cases hgs : gs with
    | nil => simp [hgs, joinSep, paddedLast]
    | cons g' gs' =>
      rw [paddedLast_cons]
      · rw [← hgs]; exact ih (by simp [hgs])
      · simp [hgs, joinSep]

theorem mem_joinSep {x : ℕ} :
    ∀ gs : List (List ℕ), x ∈ joinSep gs → (∃ g ∈ gs, x ∈ g) ∨ x = 9 := by
  intro gs
  induction gs with
  | nil => intro h; simp [joinSep] at h
  | cons g gs ih =>
    intro h
    simp only [joinSep, List.mem_append, List.mem_cons] at h
    rcases h with h | h | h
    · exact Or.inl ⟨g, by simp, h⟩
    · exact Or.inr h
    · rcases ih h with ⟨g', hg', hx⟩ | h9
      · exact Or.inl ⟨g', by simp [hg'], hx⟩
      · exact Or.inr h9

/-- Tail-recursive evaluation of `ofDigits`.  The (always-true) comparison
forces the accumulator to a numeral at every step, so that concrete
evaluation is iterative with constant-depth work per digit instead of
building one deeply nested arithmetic term. -/
def ofDigitsAux (b : ℕ) : List ℕ → ℕ → ℕ → ℕ
  | [], _, acc => acc
  | d :: ds, mult, acc =>
    if acc + d * mult < acc + d * mult + 1 then
      ofDigitsAux b ds (mult * b) (acc + d * mult)
    else 0

theorem ofDigitsAux_eq (b : ℕ) :
    ∀ (l : List ℕ) (mult acc : ℕ),
      ofDigitsAux b l mult acc = acc + mult * ofDigits b l := by
  intro l
  induction l with
  | nil => intro mult acc; simp [ofDigitsAux, ofDigits]
  | cons d ds ih =>
    intro mult acc
    simp only [ofDigitsAux, ofDigits, Nat.lt_succ_self, if_true, ih]
    ring

/-- Injective, linear-size encoding of a list of naturals into a natural. -/
def natListEnc (l : List ℕ) : ℕ :=
  ofDigitsAux 10 (joinSep (l.map (fun n => digitsF 9 n n))) 1 0

theorem natListEnc_eq (l : List ℕ) :
    natListEnc l = ofDigits 10 (joinSep (l.map (fun n => digitsF 9 n n))) := by
  unfold natListEnc
  rw [ofDigitsAux_eq]
  ring

/-- (Total) decoder for `natListEnc`; a left inverse on its image. -/
def natListDec (n : ℕ) : List ℕ :=
  (splitSep (digitsF 10 n n)).map (ofDigits 9)

theorem natListDec_enc (l : List ℕ) : natListDec (natListEnc l) = l := by
  rw [natListEnc_eq]
  unfold natListDec
  have hlt : ∀ d ∈ joinSep (l.map fun n => digitsF 9 n n), d < 10 := by
    intro d hd
    rcases mem_joinSep _ hd with ⟨g, hg, hdg⟩ | h9
    · simp only [List.mem_map] at hg
      obtain ⟨n, _, rfl⟩ := hg
      have := digitsF_lt_base (by omega : (0:ℕ) < 9) n n d hdg
      omega
    · omega
  have hlast : paddedLast (joinSep (l.map fun n => digitsF 9 n n)) ≠ 0 := by
    cases l with
    | nil => decide
    | cons a as =>
      rw [paddedLast_joinSep _ (by simp)]; omega
  rw [digitsF_ofDigits (by omega) _ _ hlt hlast (le_refl _),
    splitSep_joinSep _ ?_, List.map_map]
  · have h9 : ∀ n : ℕ, ofDigits 9 (digitsF 9 n n) = n := fun n =>
      ofDigits_digitsF (by omega) n n (le_refl n)
    exact (List.map_congr_left (fun a _ => h9 a)).trans (List.map_id l)
  · intro g hg x hx
    simp only [List.mem_map] at hg
    obtain ⟨n, _, rfl⟩ := hg
    have := digitsF_lt_base (by omega : (0:ℕ) < 9) n n x hx
    omega

theorem natListEnc_injective : Function.Injective natListEnc := by
  intro a b h
  have := congrArg natListDec h
  rwa [natListDec_enc, natListDec_enc] at this

/-! ### Characters, strings and key-value stores as naturals -/

/-- Decode a natural back into a character (inverse of `Char.toNat` on valid
code points). -/
def charDec (n : ℕ) : Option Char :=
  if h : n.isValidChar then some ⟨⟨⟨n, by
    rcases h with h | ⟨_, h⟩ <;> omega⟩⟩, h⟩ else none

theorem charDec_toNat (c : Char) : charDec c.toNat = some c := by
  have hv : c.toNat.isValidChar := c.valid
  simp only [charDec, hv, dif_pos]
  rfl

/-- `Option`-valued map over a list, failing if any element fails. -/
def mapOpt (f : α → Option β) : List α → Option (List β)
  | [] => some []
  | a :: as =>
    match f a, mapOpt f as with
    | some b, some bs => some (b :: bs)
    | _, _ => none

theorem mapOpt_map_eq_some (f : α → Option β) (g : β → α)
    (hf : ∀ b, f (g b) = some b) :
    ∀ l : List β, mapOpt f (l.map g) = some l := by
  intro l
  induction l with
  | nil => rfl
  | cons b bs ih => simp only [List.map_cons, mapOpt, hf b, ih]

/-- Injective encoding of a string into a natural (via its code points). -/
def strEnc (s : String) : ℕ := natListEnc (s.data.map Char.toNat)

/-- Left inverse of `strEnc` on its image. -/
def strDec (n : ℕ) : Option String :=
  (mapOpt charDec (natListDec n)).map String.mk

theorem strDec_enc (s : String) : strDec (strEnc s) = some s := by
  unfold strDec strEnc
  rw [natListDec_enc, mapOpt_map_eq_some charDec Char.toNat charDec_toNat]
  cases s; rfl

theorem strEnc_injective : Function.Injective strEnc := by
  intro a b h
  have := congrArg strDec h
  rw [strDec_enc, strDec_enc] at this
  exact Option.some.inj this

/-- The key-value store of the keychain: JS object `this.kvs` as an
association list in property insertion order (JS string-keyed objects
preserve insertion order, which is also `JSON.stringify` order). -/
abbrev KVS := List (String × String)

/-- Injective encoding of a key-value store into a natural. -/
def kvsEnc (kvs : KVS) : ℕ :=
  natListEnc (kvs.map (fun p => natListEnc [strEnc p.1, strEnc p.2]))

/-- Left inverse of `kvsEnc` on its image. -/
def kvsDec (n : ℕ) : Option KVS :=
  mapOpt (fun e =>
    match natListDec e with
    | [a, b] =>
      match strDec a, strDec b with
      | some x, some y => some (x, y)
      | _, _ => none
    | _ => none) (natListDec n)

theorem kvsDec_enc (kvs : KVS) : kvsDec (kvsEnc kvs) = some kvs := by
  unfold kvsDec kvsEnc
  rw [natListDec_enc]
  apply mapOpt_map_eq_some
  intro (a, b)
  rw [natListDec_enc]
  simp only [strDec_enc]

/-! ## Data model of the source -/

/-- The PBKDF2-derived AES key (`subtle.deriveKey` result).  PBKDF2 is
deterministic, so the key is determined by — and, as an ideal KDF, modelled
as — the `(password, salt)` pair it was derived from. -/
structure Key where
  password : String
  salt : List ℕ
deriving DecidableEq

/-- The errors `Keychain.load` can throw: a `JSON.parse` `SyntaxError`
(line 21 of the source), `"Checksum validation failed"` (line 25), and
`"Failed to load Keychain: Incorrect password"` (line 37). -/
inductive LoadError
  | parseError
  | integrityError
  | wrongPassword
deriving DecidableEq

/-- The record returned by `encryptKVS`:
`{ iv: Array.from(iv), encryptedKVS: Array.from(new Uint8Array(encrypted)) }`. -/
structure EncRec where
  iv : List ℕ
  encryptedKVS : List ℕ
deriving DecidableEq

/-- The `Keychain` object: `this.kvs`, `this.masterKey`, `this.salt`.
The constructor initialises `kvs = {}`, `masterKey = null`, `salt = null`. -/
structure Keychain where
  kvs : KVS := []
  masterKey : Option Key := none
  salt : Option (List ℕ) := none
deriving DecidableEq

/-- `new Keychain()` (the constructor, lines 8–12). -/
def Keychain.new : Keychain := {}

/-! ## Concrete serialisation (`JSON.stringify`)

The serialiser is written character by character so that byte-level claims
(single-byte tampering, checksum coverage, ciphertext lengths) are about the
actual serialised text. -/

/-- Construct a character from a small code point (below the surrogate
range), with a definitionally transparent `toNat`. -/
def mkCharSmall (m : ℕ) (h : m < 55296) : Char :=
  ⟨⟨⟨m, by omega⟩⟩, Or.inl h⟩

theorem mkCharSmall_toNat (m : ℕ) (h : m < 55296) :
    (mkCharSmall m h).toNat = m := rfl

/-- The ASCII digit character for `d % 10`. -/
def digitChar10 (d : ℕ) : Char := mkCharSmall (48 + d % 10) (by omega)

/-- Decimal numeral of `n`, exactly as `JSON.stringify` prints a number. -/
def natChars (n : ℕ) : List Char :=
  if n = 0 then [digitChar10 0] else ((digitsF 10 n n).reverse).map digitChar10

/-- Comma-interleaving of pre-rendered pieces (JSON array/object bodies). -/
def commaSep : List (List Char) → List Char
  | [] => []
  | [x] => x
  | x :: xs => x ++ ',' :: commaSep xs

/-- A JSON array of numbers, e.g. `[1,2,3]`. -/
def serNats (l : List ℕ) : List Char :=
  '[' :: (commaSep (l.map natChars) ++ [']'])

/-- One hexadecimal digit (lower case), as used in `\u00XX` escapes. -/
def hexChar (d : ℕ) : Char :=
  if d % 16 < 10 then mkCharSmall (48 + d % 16) (by omega)
  else mkCharSmall (87 + d % 16) (by omega)

/-- `JSON.stringify` escaping of a single character inside a string
literal. -/
def escapeChar (c : Char) : List Char :=
  if c = '"' then ['\\', '"']
  else if c = '\\' then ['\\', '\\']
  else if c.toNat = 8 then ['\\', 'b']
  else if c.toNat = 9 then ['\\', 't']
  else if c.toNat = 10 then ['\\', 'n']
  else if c.toNat = 12 then ['\\', 'f']
  else if c.toNat = 13 then ['\\', 'r']
  else if c.toNat < 32 then
    ['\\', 'u', '0', '0', hexChar (c.toNat / 16), hexChar (c.toNat % 16)]
  else [c]

/-- A JSON string literal with its quotes. -/
def strChars (s : String) : List Char :=
  '"' :: (s.data.flatMap escapeChar ++ ['"'])

/-- `JSON.stringify(this.kvs)`: the kvs as a JSON object, keys in insertion
order. -/
def kvsChars (kvs : KVS) : List Char :=
  '{' :: (commaSep (kvs.map fun p => strChars p.1 ++ ':' :: strChars p.2) ++ ['}'])

/-- The serialised blob of `dump` (line 45–49 of the source):
`JSON.stringify({ kvs: includeKVS ? this.kvs : null, encryptedKVS, salt: Array.from(this.salt) })`.
Key order is the object-literal insertion order `kvs`, `encryptedKVS`,
`salt`; the nested `encryptedKVS` object has key order `iv`,
`encryptedKVS`. -/
def contentsChars (okvs : Option KVS) (enc : EncRec) (salt : List ℕ) : List Char :=
  "\x7b\"kvs\":".data
    ++ (match okvs with
        | none => "null".data
        | some k => kvsChars k)
    ++ ",\"encryptedKVS\":\x7b\"iv\":".data ++ serNats enc.iv
    ++ ",\"encryptedKVS\":".data ++ serNats enc.encryptedKVS
    ++ "\x7d,\"salt\":".data ++ serNats salt
    ++ "\x7d".data

/-! ## Ideal cryptographic primitives -/

/-- `Keychain.computeChecksum` (lines 114–117): SHA-256 over the UTF-8 bytes
of `data`, idealised as an injective digest.  (The source hex-encodes the
32-byte digest; the model keeps the digest as a natural, the hex encoding
being itself injective.) -/
def Keychain.computeChecksum (data : String) : ℕ := strEnc data

theorem computeChecksum_injective :
    Function.Injective Keychain.computeChecksum := strEnc_injective

/-- Plaintext fed to AES-GCM in `encryptKVS`:
`new TextEncoder().encode(JSON.stringify(this.kvs))`. -/
def ptBytes (kvs : KVS) : List ℕ := (kvsChars kvs).map Char.toNat

/-- The ideal-GCM authentication tag over `(key, iv, plaintext)`; injective,
hence unforgeable in the model. -/
def gcmTag (key : Key) (iv : List ℕ) (kvs : KVS) : ℕ :=
  natListEnc [strEnc key.password, natListEnc key.salt, natListEnc iv, kvsEnc kvs]

/-- Decode an ideal-GCM tag. -/
def gcmTagDec (n : ℕ) : Option (String × List ℕ × List ℕ × KVS) :=
  match natListDec n with
  | [a, b, c, d] =>
    match strDec a, kvsDec d with
    | some pw, some kv => some (pw, natListDec b, natListDec c, kv)
    | _, _ => none
  | _ => none

theorem gcmTagDec_tag (key : Key) (iv : List ℕ) (kvs : KVS) :
    gcmTagDec (gcmTag key iv kvs) = some (key.password, key.salt, iv, kvs) := by
  unfold gcmTagDec gcmTag
  rw [natListDec_enc]
  simp only [strDec_enc, kvsDec_enc, natListDec_enc]

/-- `subtle.encrypt({name:"AES-GCM", iv}, key, plaintext)` as ideal
authenticated encryption: the ciphertext bytes are the plaintext bytes
followed by a 16-entry authentication block (GCM appends a 16-byte tag, so
`length = plaintext length + 16`). -/
def gcmEncrypt (key : Key) (iv : List ℕ) (kvs : KVS) : List ℕ :=
  ptBytes kvs ++ List.replicate 15 0 ++ [gcmTag key iv kvs]

/-- `subtle.decrypt({name:"AES-GCM", iv}, key, ct)`: succeeds exactly on a
genuine ciphertext produced under the same key and iv (GCM tag check). -/
def gcmDecrypt (key : Key) (iv : List ℕ) (ct : List ℕ) : Option KVS :=
  match ct.reverse with
  | [] => none
  | t :: r =>
    if r.take 15 = List.replicate 15 0 then
      match gcmTagDec t with
      | some (pw, s, ivStored, kvs) =>
        if pw = key.password ∧ s = key.salt ∧ ivStored = iv ∧
            (r.drop 15).reverse = ptBytes kvs
        then some kvs else none
      | none => none
    else none

theorem gcmEncrypt_length (key : Key) (iv : List ℕ) (kvs : KVS) :
    (gcmEncrypt key iv kvs).length = (ptBytes kvs).length + 16 := by
  simp [gcmEncrypt]

theorem gcmDecrypt_encrypt (key : Key) (iv : List ℕ) (kvs : KVS) :
    gcmDecrypt key iv (gcmEncrypt key iv kvs) = some kvs := by
  unfold gcmDecrypt gcmEncrypt
  rw [List.append_assoc, List.reverse_append]
  simp only [List.reverse_append, List.reverse_cons, List.reverse_nil,
    List.nil_append, List.cons_append, List.reverse_replicate]
  have htake : (List.replicate 15 (0:ℕ) ++ (ptBytes kvs).reverse).take 15
      = List.replicate 15 0 := by
    have := List.take_left (List.replicate 15 (0:ℕ)) (ptBytes kvs).reverse
    simpa using this
  have hdrop : (List.replicate 15 (0:ℕ) ++ (ptBytes kvs).reverse).drop 15
      = (ptBytes kvs).reverse := by
    have := List.drop_left (List.replicate 15 (0:ℕ)) (ptBytes kvs).reverse
    simpa using this
  rw [htake, if_pos rfl, gcmTagDec_tag, hdrop, List.reverse_reverse]
  simp

theorem gcmDecrypt_wrong_password (p q : String) (salt iv : List ℕ) (kvs : KVS)
    (h : q ≠ p) :
    gcmDecrypt ⟨q, salt⟩ iv (gcmEncrypt ⟨p, salt⟩ iv kvs) = none := by
  unfold gcmDecrypt gcmEncrypt
  rw [List.append_assoc, List.reverse_append]
  simp only [List.reverse_append, List.reverse_cons, List.reverse_nil,
    List.nil_append, List.cons_append, List.reverse_replicate]
  have htake : (List.replicate 15 (0:ℕ) ++ (ptBytes kvs).reverse).take 15
      = List.replicate 15 0 := by
    have := List.take_left (List.replicate 15 (0:ℕ)) (ptBytes kvs).reverse
    simpa using this
  rw [htake, if_pos rfl, gcmTagDec_tag]
  simp only
  rw [if_neg]
  intro ⟨hpw, _⟩
  exact h hpw.symm

/-! ## The restricted `JSON.parse` of `load`

`load` begins with `JSON.parse(contents)`.  The parser below recognises the
grammar of blobs this application produces (`{"kvs": null | {string:string},
"encryptedKVS":{"iv":[nums],"encryptedKVS":[nums]},"salt":[nums]}`, no
whitespace) and fails — as `JSON.parse` throws a `SyntaxError` — on
everything else. -/

/-- The object recovered by `JSON.parse(contents)` in `load`; `load` reads
only `.encryptedKVS` and `.salt` (the `kvs` field is parsed but unused). -/
structure ParsedContents where
  kvsField : Option KVS
  encryptedKVS : EncRec
  salt : List ℕ
deriving DecidableEq

/-- Consume an expected literal. -/
def expectLit : List Char → List Char → Option (List Char)
  | [], s => some s
  | _ :: _, [] => none
  | p :: ps, c :: cs => if c = p then expectLit ps cs else none

theorem expectLit_append (pat rest : List Char) :
    expectLit pat (pat ++ rest) = some rest := by
  induction pat with
  | nil => rfl
  | cons p ps ih => simp [expectLit, ih]

/-- ASCII decimal digit test (mirrors which characters `JSON.parse` accepts
in a number for the integers this application serialises). -/
def isDigitC (c : Char) : Bool := 48 ≤ c.toNat && c.toNat ≤ 57

/-- Parse a run of decimal digits as a natural. -/
def parseNat (s : List Char) : Option (ℕ × List Char) :=
  let ds := s.takeWhile isDigitC
  if ds = [] then none
  else some (ds.foldl (fun a c => a * 10 + (c.toNat - 48)) 0, s.dropWhile isDigitC)

/-- Parse the comma-separated tail of a nonempty number array, up to and
including the closing bracket.  Fuel bounds the number of elements. -/
def parseNatsAux : ℕ → List Char → Option (List ℕ × List Char)
  | 0, _ => none
  | f + 1, s =>
    match parseNat s with
    | none => none
    | some (n, rest) =>
      match rest with
      | ',' :: rest2 =>
        match parseNatsAux f rest2 with
        | some (l, r) => some (n :: l, r)
        | none => none
      | ']' :: rest2 => some ([n], rest2)
      | _ => none

/-- Parse a JSON array of naturals. -/
def parseNatList (s : List Char) : Option (List ℕ × List Char) :=
  match s with
  | '[' :: rest =>
    if rest.head? = some ']' then some ([], rest.tail)
    else parseNatsAux rest.length rest
  | _ => none

/-- Value of one hexadecimal digit character. -/
def hexVal (c : Char) : Option ℕ :=
  if 48 ≤ c.toNat ∧ c.toNat ≤ 57 then some (c.toNat - 48)
  else if 97 ≤ c.toNat ∧ c.toNat ≤ 102 then some (c.toNat - 87)
  else if 65 ≤ c.toNat ∧ c.toNat ≤ 70 then some (c.toNat - 55)
  else none

/-- Decode one JSON escape sequence (the part after the backslash, for the
non-self-representing escapes). -/
def escDecode (e : Char) (rest : List Char) : Option (Char × List Char) :=
  if e = 'b' then some (mkCharSmall 8 (by omega), rest)
  else if e = 't' then some (mkCharSmall 9 (by omega), rest)
  else if e = 'n' then some (mkCharSmall 10 (by omega), rest)
  else if e = 'f' then some (mkCharSmall 12 (by omega), rest)
  else if e = 'r' then some (mkCharSmall 13 (by omega), rest)
  else if e = 'u' then
    match rest with
    | h1 :: h2 :: h3 :: h4 :: r =>
      (hexVal h1).bind fun v1 =>
        (hexVal h2).bind fun v2 =>
          (hexVal h3).bind fun v3 =>
            (hexVal h4).bind fun v4 =>
              (charDec (((v1 * 16 + v2) * 16 + v3) * 16 + v4)).map
                fun c2 => (c2, r)
    | _ => none
  else none

/-- Parse a JSON string literal (after its opening quote), undoing
`JSON.stringify` escapes. -/
def parseStrAux : ℕ → List Char → Option (List Char × List Char)
  | 0, _ => none
  | f + 1, s =>
    match s with
    | [] => none
    | c :: rest =>
      if c = '"' then some ([], rest)
      else if c = '\\' then
        match rest with
        | [] => none
        | e :: rest2 =>
          if e = '"' ∨ e = '\\' ∨ e = '/' then
            (parseStrAux f rest2).map fun p => (e :: p.1, p.2)
          else
            (escDecode e rest2).bind fun q =>
              (parseStrAux f q.2).map fun p => (q.1 :: p.1, p.2)
      else if c.toNat < 32 then none
      else (parseStrAux f rest).map fun p => (c :: p.1, p.2)

/-- Parse a JSON string literal including its opening quote. -/
def parseStr (s : List Char) : Option (String × List Char) :=
  match s with
  | '"' :: rest =>
    match parseStrAux rest.length rest with
    | some (cs, r) => some (String.mk cs, r)
    | none => none
  | _ => none

/-- Parse the members of a nonempty `{string:string}` object, up to and
including the closing brace. -/
def parseKvsAux : ℕ → List Char → Option (KVS × List Char)
  | 0, _ => none
  | f + 1, s =>
    match parseStr s with
    | none => none
    | some (k, rest) =>
      match rest with
      | ':' :: rest2 =>
        match parseStr rest2 with
        | none => none
        | some (v, rest3) =>
          match rest3 with
          | ',' :: rest4 =>
            match parseKvsAux f rest4 with
            | some (kvs, r) => some ((k, v) :: kvs, r)
            | none => none
          | '}' :: rest4 => some ([(k, v)], rest4)
          | _ => none
      | _ => none

/-- Parse the `kvs` field value: `null` or a `{string:string}` object. -/
def parseKvsField (s : List Char) : Option (Option KVS × List Char) :=
  match s with
  | 'n' :: rest =>
    match expectLit "ull".data rest with
    | some r => some (none, r)
    | none => none
  | '{' :: rest =>
    if rest.head? = some '}' then some (some [], rest.tail)
    else
      match parseKvsAux rest.length rest with
      | some (kvs, r) => some (some kvs, r)
      | none => none
  | _ => none

/-- `JSON.parse(contents)` as used by `load` (line 21 of the source),
restricted to the blob grammar of this application. -/
def parseContents (contents : String) : Option ParsedContents :=
  match expectLit "\x7b\"kvs\":".data contents.data with
  | none => none
  | some s1 =>
    match parseKvsField s1 with
    | none => none
    | some (okvs, s2) =>
      match expectLit ",\"encryptedKVS\":\x7b\"iv\":".data s2 with
      | none => none
      | some s3 =>
        match parseNatList s3 with
        | none => none
        | some (iv, s4) =>
          match expectLit ",\"encryptedKVS\":".data s4 with
          | none => none
          | some s5 =>
            match parseNatList s5 with
            | none => none
            | some (ct, s6) =>
              match expectLit "\x7d,\"salt\":".data s6 with
              | none => none
              | some s7 =>
                match parseNatList s7 with
                | none => none
                | some (salt, s8) =>
                  match s8 with
                  | ['}'] => some ⟨okvs, ⟨iv, ct⟩, salt⟩
                  | _ => none

/-! ## The `Keychain` operations -/

/-- `Keychain.deriveKey(password, salt = null)` (lines 70–84): PBKDF2 over
`(password, salt)`; a falsy (`null`) salt is replaced by 16 fresh random
bytes (`crypto.getRandomValues(new Uint8Array(16))`), supplied here through
the `saltRandom` oracle argument.  There is no input validation: any
password (the empty string included) and any supplied salt are accepted. -/
def Keychain.deriveKey (password : String) (salt : Option (List ℕ))
    (saltRandom : List ℕ) : Key × List ℕ :=
  match salt with
  | some s => (⟨password, s⟩, s)
  | none => (⟨password, saltRandom⟩, saltRandom)

/-- `Keychain.init(password)` (lines 14–18). -/
def Keychain.init (password : String) (saltRandom : List ℕ) : Keychain :=
  let derived := Keychain.deriveKey password none saltRandom
  { Keychain.new with masterKey := some derived.1, salt := some derived.2 }

/-- Association-list image of a JS object property write
`this.kvs[url] = password`: update in place if present (property order is
preserved), append otherwise. -/
def setEntry : KVS → String → String → KVS
  | [], d, v => [(d, v)]
  | (d0, v0) :: rest, d, v =>
    if d0 = d then (d, v) :: rest else (d0, v0) :: setEntry rest d v

/-- JS object property read `this.kvs[url]` (absent ↦ `undefined`,
modelled as `none`). -/
def lookupKvs : KVS → String → Option String
  | [], _ => none
  | (d0, v0) :: rest, d => if d0 = d then some v0 else lookupKvs rest d

/-- JS object property delete. -/
def removeEntry : KVS → String → KVS
  | [], _ => []
  | (d0, v0) :: rest, d =>
    if d0 = d then rest else (d0, v0) :: removeEntry rest d

/-- `Keychain.set(url, password)` (lines 58–60): `this.kvs[url] = password`.
Note: the *plaintext* value is stored under the *plain* url; no tagging or
per-entry encryption happens here. -/
def Keychain.set (k : Keychain) (url password : String) : Keychain :=
  { k with kvs := setEntry k.kvs url password }

/-- `Keychain.get(url)` (lines 54–56): `return this.kvs[url] || null;`.
A stored falsy value — in particular the empty string — yields `null`
(`none`), exactly like an absent key. -/
def Keychain.get (k : Keychain) (url : String) : Option String :=
  match lookupKvs k.kvs url with
  | some v => if v = "" then none else some v
  | none => none

/-- `Keychain.remove(url)` (lines 62–68): checks `url in this.kvs`, deletes
and returns `true` if present, otherwise returns `false`. -/
def Keychain.remove (k : Keychain) (url : String) : Keychain × Bool :=
  if (lookupKvs k.kvs url).isSome then
    ({ k with kvs := removeEntry k.kvs url }, true)
  else (k, false)

/-- `Keychain.encryptKVS()` (lines 86–100): AES-GCM-encrypt
`JSON.stringify(this.kvs)` under `this.masterKey` with a fresh random
12-byte IV (the `ivRandom` oracle argument). -/
def Keychain.encryptKVS (key : Key) (ivRandom : List ℕ) (kvs : KVS) : EncRec :=
  { iv := ivRandom, encryptedKVS := gcmEncrypt key ivRandom kvs }

/-- `Keychain.decryptKVS(encryptedData)` (lines 102–112): AES-GCM-decrypt
and `JSON.parse` the result.  In the ideal-cipher model a successful
decryption returns exactly the serialised kvs, so the inner
`JSON.parse(TextDecoder.decode(...))` round-trip of the JS builtins is
collapsed into the returned `KVS`; any authentication failure is `none`
(the JS exception caught by `load`). -/
def Keychain.decryptKVS (key : Key) (enc : EncRec) : Option KVS :=
  gcmDecrypt key enc.iv enc.encryptedKVS

/-- `Keychain.dump({ includeKVS = false } = {})` (lines 43–52): encrypt the
kvs, serialise `{kvs: includeKVS ? this.kvs : null, encryptedKVS, salt}`,
and checksum the serialised contents.  `none` models the `TypeError` the
source throws when `masterKey`/`salt` are still `null` (uninitialised). -/
def Keychain.dump (k : Keychain) (includeKVS : Bool) (ivRandom : List ℕ) :
    Option (String × ℕ) :=
  match k.masterKey, k.salt with
  | some key, some salt =>
    let enc := Keychain.encryptKVS key ivRandom k.kvs
    let contents := String.mk
      (contentsChars (if includeKVS then some k.kvs else none) enc salt)
    some (contents, Keychain.computeChecksum contents)
  | _, _ => none

/-- `Keychain.load(password, contents, checksum)` (lines 20–41), in source
order: `JSON.parse(contents)` first (line 21), then the checksum is computed
(line 22) and compared only when the `checksum` argument is truthy
(line 24: `if (checksum && checksum !== newChecksum)`); then the key is
re-derived from the stored salt and the kvs decrypted, any decryption
failure becoming `"Incorrect password"` (lines 34–38).  A falsy checksum
argument (JS `""`/`null`/`undefined`) is `none`. -/
def Keychain.load (password : String) (contents : String)
    (checksum : Option ℕ) : Except LoadError Keychain :=
  match parseContents contents with
  | none => Except.error LoadError.parseError
  | some parsed =>
    if checksum.any (fun c => c != Keychain.computeChecksum contents) then
      Except.error LoadError.integrityError
    else
      match Keychain.decryptKVS
          (Keychain.deriveKey password (some parsed.salt) []).1
          parsed.encryptedKVS with
      | some kvs =>
        Except.ok { kvs := kvs,
                    masterKey := some (Keychain.deriveKey password
                      (some parsed.salt) []).1,
                    salt := some parsed.salt }
      | none => Except.error LoadError.wrongPassword

/-- Run a sequence of `set(domain, value)` operations. -/
def applyOps (k : Keychain) (ops : List (String × String)) : Keychain :=
  ops.foldl (fun k p => k.set p.1 p.2) k

/-- Replace the byte at position `i` of a blob (single-byte tampering). -/
def flipAt (s : String) (i : ℕ) (c : Char) : String := String.mk (s.data.set i c)

theorem applyOps_masterKey (k : Keychain) (ops : List (String × String)) :
    (applyOps k ops).masterKey = k.masterKey := by
  induction ops generalizing k with
  | nil => rfl
  | cons p ps ih => simp only [applyOps, List.foldl_cons] at ih ⊢; rw [ih]; rfl

theorem applyOps_salt (k : Keychain) (ops : List (String × String)) :
    (applyOps k ops).salt = k.salt := by
  induction ops generalizing k with
  | nil => rfl
  | cons p ps ih => simp only [applyOps, List.foldl_cons] at ih ⊢; rw [ih]; rfl

/-! ### Round-trip of the parser on serialised blobs -/

theorem takeWhile_append_eq (p : Char → Bool) (xs ys : List Char)
    (hx : ∀ a ∈ xs, p a = true) (hy : ∀ y, ys.head? = some y → p y = false) :
    (xs ++ ys).takeWhile p = xs := by
  induction xs with
  | nil =>
    cases ys with
    | nil => rfl
    | cons y ys =>
      simp [List.takeWhile_cons, hy y rfl]
  | cons a as ih =>
    simp [List.takeWhile_cons, hx a (by simp),
      ih (fun a ha => hx a (by simp [ha]))]

theorem dropWhile_append_eq (p : Char → Bool) (xs ys : List Char)
    (hx : ∀ a ∈ xs, p a = true) (hy : ∀ y, ys.head? = some y → p y = false) :
    (xs ++ ys).dropWhile p = ys := by
  induction xs with
  | nil =>
    cases ys with
    | nil => rfl
    | cons y ys =>
      simp [List.dropWhile_cons, hy y rfl]
  | cons a as ih =>
    simp [List.dropWhile_cons, hx a (by simp),
      ih (fun a ha => hx a (by simp [ha]))]

theorem isDigitC_digitChar10 (d : ℕ) : isDigitC (digitChar10 d) = true := by
  have h : (digitChar10 d).toNat = 48 + d % 10 := rfl
  have hm : d % 10 < 10 := Nat.mod_lt _ (by omega)
  simp only [isDigitC, h, Bool.and_eq_true, decide_eq_true_eq]
  omega

theorem natChars_ne_nil (n : ℕ) : natChars n ≠ [] := by
  unfold natChars
  by_cases h0 : n = 0
  · simp [h0]
  · simp only [h0, if_false, ne_eq, List.map_eq_nil_iff, List.reverse_eq_nil_iff]
    cases hn : digitsF 10 n n with
    | nil =>
      exfalso
      have := ofDigits_digitsF (b := 10) (by omega) n n (le_refl n)
      rw [hn] at this
      simp [ofDigits] at this
      omega
    | cons d ds => simp

theorem mem_natChars_isDigit (n : ℕ) : ∀ c ∈ natChars n, isDigitC c = true := by
  unfold natChars
  by_cases h0 : n = 0
  · simp only [h0, if_true, List.mem_singleton]
    rintro c rfl
    exact isDigitC_digitChar10 0
  · simp only [h0, if_false, List.mem_map]
    rintro c ⟨d, _, rfl⟩
    exact isDigitC_digitChar10 d

theorem foldl_digitChars (ds : List ℕ) (hds : ∀ d ∈ ds, d < 10) (a : ℕ) :
    ((ds.reverse).map digitChar10).foldl (fun a c => a * 10 + (c.toNat - 48)) a
      = a * 10 ^ ds.length + ofDigits 10 ds := by
  induction ds generalizing a with
  | nil => simp [ofDigits]
  | cons d ds ih =>
    have hd : d < 10 := hds d (by simp)
    simp only [List.reverse_cons, List.map_append, List.map_cons,
      List.map_nil, List.foldl_append, List.foldl_cons, List.foldl_nil,
      ih (fun x hx => hds x (by simp [hx]))]
    have htn : (digitChar10 d).toNat = 48 + d % 10 := rfl
    rw [htn]
    have : 48 + d % 10 - 48 = d % 10 := by omega
    rw [this, Nat.mod_eq_of_lt hd]
    show (a * 10 ^ ds.length + ofDigits 10 ds) * 10 + d
      = a * 10 ^ (ds.length + 1) + ofDigits 10 (d :: ds)
    simp only [ofDigits, pow_succ]
    ring

theorem parseNat_natChars (n : ℕ) (rest : List Char)
    (hy : ∀ y, rest.head? = some y → isDigitC y = false) :
    parseNat (natChars n ++ rest) = some (n, rest) := by
  unfold parseNat
  rw [takeWhile_append_eq _ _ _ (mem_natChars_isDigit n) hy,
    dropWhile_append_eq _ _ _ (mem_natChars_isDigit n) hy]
  simp only [natChars_ne_nil n, if_false]
  congr 1
  congr 1
  unfold natChars
  by_cases h0 : n = 0
  · simp [h0]
    rfl
  · simp only [h0, if_false]
    have := foldl_digitChars (digitsF 10 n n)
      (fun d hd => digitsF_lt_base (by omega) n n d hd) 0
    rw [this, ofDigits_digitsF (by omega) n n (le_refl n)]
    simp

theorem isDigitC_rbracket : isDigitC ']' = false := by decide

theorem isDigitC_comma : isDigitC ',' = false := by decide

theorem parseNatsAux_commaSep (l : List ℕ) (n : ℕ) (rest : List Char) :
    ∀ f, f ≥ l.length + 1 →
      parseNatsAux f (commaSep ((n :: l).map natChars) ++ ']' :: rest)
        = some (n :: l, rest) := by
  induction l generalizing n with
  | nil =>
    intro f hf
    match f, hf with
    | f + 1, _ =>
      simp only [List.map_cons, List.map_nil, commaSep, parseNatsAux]
      rw [parseNat_natChars n (']' :: rest)
        (by rintro y hy; cases hy; exact isDigitC_rbracket)]
      rfl
  | cons m l ih =>
    intro f hf
    match f, hf with
    | f + 1, hf =>
      have hcs : commaSep ((n :: m :: l).map natChars)
          = natChars n ++ ',' :: commaSep ((m :: l).map natChars) := rfl
      rw [hcs, List.append_assoc]
      simp only [parseNatsAux]
      rw [parseNat_natChars n _
        (by rintro y hy; cases hy; exact isDigitC_comma)]
      simp only [List.cons_append]
      rw [ih m f (by simpa using Nat.le_of_succ_le_succ hf)]

theorem commaSep_natChars_length (l : List ℕ) :
    (commaSep (l.map natChars)).length + 1 ≥ l.length := by
  induction l with
  | nil => simp [commaSep]
  | cons n l ih =>
    cases l with
    | nil => simp [commaSep]
    | cons m l2 =>
      have hcs : commaSep ((n :: m :: l2).map natChars)
          = natChars n ++ ',' :: commaSep ((m :: l2).map natChars) := rfl
      rw [hcs]
      simp only [List.length_append, List.length_cons] at ih ⊢
      have hn : (natChars n).length ≥ 1 := by
        cases hnc : natChars n with
        | nil => exact absurd hnc (natChars_ne_nil n)
        | cons c cs => simp
      omega

theorem head_commaSep_natChars (n : ℕ) (l : List ℕ) (tail : List Char) :
    ∃ c cs, commaSep ((n :: l).map natChars) ++ tail = c :: cs
      ∧ isDigitC c = true := by
  obtain ⟨c, cs, hc⟩ : ∃ c cs, natChars n = c :: cs := by
    cases hnc : natChars n with
    | nil => exact absurd hnc (natChars_ne_nil n)
    | cons c cs => exact ⟨c, cs, rfl⟩
  have hd : isDigitC c = true := mem_natChars_isDigit n c (by simp [hc])
  cases l with
  | nil =>
    refine ⟨c, cs ++ tail, ?_, hd⟩
    have h1 : commaSep ((n :: ([] : List ℕ)).map natChars) = natChars n := rfl
    rw [h1, hc]
    simp
  | cons m l2 =>
    refine ⟨c, cs ++ (',' :: (commaSep ((m :: l2).map natChars) ++ tail)), ?_, hd⟩
    have h1 : commaSep ((n :: m :: l2).map natChars)
        = natChars n ++ ',' :: commaSep ((m :: l2).map natChars) := rfl
    rw [h1, hc]
    simp [List.append_assoc]

theorem parseNatList_serNats (l : List ℕ) (rest : List Char) :
    parseNatList (serNats l ++ rest) = some (l, rest) := by
  have hser : serNats l ++ rest
      = '[' :: (commaSep (l.map natChars) ++ ']' :: rest) := by
    simp [serNats, List.append_assoc]
  rw [hser]
  cases l with
  | nil => simp [parseNatList, commaSep]
  | cons n l2 =>
    obtain ⟨c, cs, hc, hd⟩ := head_commaSep_natChars n l2 (']' :: rest)
    simp only [parseNatList]
    rw [hc]
    have hne : (c :: cs).head? ≠ some ']' := by
      simp only [List.head?_cons, ne_eq, Option.some.injEq]
      intro hcr
      rw [hcr] at hd
      exact absurd hd (by decide)
    rw [if_neg hne]
    have hlen : (commaSep ((n :: l2).map natChars) ++ ']' :: rest).length
        ≥ l2.length + 1 := by
      have h1 := commaSep_natChars_length (n :: l2)
      simp only [List.length_append, List.length_cons] at h1 ⊢
      omega
    rw [← hc]
    exact parseNatsAux_commaSep l2 n rest _ hlen

theorem parseKvsField_null (rest : List Char) :
    parseKvsField (['n', 'u', 'l', 'l'] ++ rest) = some (none, rest) := rfl

theorem parseContents_contentsChars (enc : EncRec) (salt : List ℕ) :
    parseContents (String.mk (contentsChars none enc salt))
      = some ⟨none, enc, salt⟩ := by
  have h0 : contentsChars none enc salt
      = ['{', '\"', 'k', 'v', 's', '\"', ':']
        ++ (['n', 'u', 'l', 'l']
        ++ ([',', '\"', 'e', 'n', 'c', 'r', 'y', 'p', 't', 'e', 'd', 'K', 'V',
              'S', '\"', ':', '{', '\"', 'i', 'v', '\"', ':']
        ++ (serNats enc.iv
        ++ ([',', '\"', 'e', 'n', 'c', 'r', 'y', 'p', 't', 'e', 'd', 'K', 'V',
              'S', '\"', ':']
        ++ (serNats enc.encryptedKVS
        ++ (['}', ',', '\"', 's', 'a', 'l', 't', '\"', ':']
        ++ (serNats salt ++ ['}']))))))) := by
    simp [contentsChars, List.append_assoc]
  simp only [parseContents, h0, expectLit_append, parseKvsField_null,
    parseNatList_serNats]

/-! ## Behaviour of `dump` and `load` on genuine keychains -/

theorem dump_applyOps (p : String) (saltR iv : List ℕ)
    (ops : List (String × String)) (includeKVS : Bool) :
    (applyOps (Keychain.init p saltR) ops).dump includeKVS iv
      = some (String.mk (contentsChars
            (if includeKVS then some (applyOps (Keychain.init p saltR) ops).kvs
             else none)
            ⟨iv, gcmEncrypt ⟨p, saltR⟩ iv (applyOps (Keychain.init p saltR) ops).kvs⟩
            saltR),
          Keychain.computeChecksum (String.mk (contentsChars
            (if includeKVS then some (applyOps (Keychain.init p saltR) ops).kvs
             else none)
            ⟨iv, gcmEncrypt ⟨p, saltR⟩ iv (applyOps (Keychain.init p saltR) ops).kvs⟩
            saltR))) := by
  have hmk : (applyOps (Keychain.init p saltR) ops).masterKey = some ⟨p, saltR⟩ := by
    rw [applyOps_masterKey]; rfl
  have hsalt : (applyOps (Keychain.init p saltR) ops).salt = some saltR := by
    rw [applyOps_salt]; rfl
  unfold Keychain.dump
  rw [hmk, hsalt]
  rfl

theorem dump_applyOps_false (p : String) (saltR iv : List ℕ)
    (ops : List (String × String)) :
    (applyOps (Keychain.init p saltR) ops).dump false iv
      = some (String.mk (contentsChars none
            ⟨iv, gcmEncrypt ⟨p, saltR⟩ iv (applyOps (Keychain.init p saltR) ops).kvs⟩
            saltR),
          Keychain.computeChecksum (String.mk (contentsChars none
            ⟨iv, gcmEncrypt ⟨p, saltR⟩ iv (applyOps (Keychain.init p saltR) ops).kvs⟩
            saltR))) := by
  rw [dump_applyOps]
  rfl

/-- A genuine dump loads back to the identical keychain, whether the caller
supplies the matching checksum or a falsy one. -/
theorem load_genuine (p : String) (saltR iv : List ℕ)
    (ops : List (String × String)) (blob : String) (chk : ℕ)
    (hdump : (applyOps (Keychain.init p saltR) ops).dump false iv = some (blob, chk))
    (chkArg : Option ℕ) (hchk : chkArg = none ∨ chkArg = some chk) :
    Keychain.load p blob chkArg = Except.ok (applyOps (Keychain.init p saltR) ops) := by
  rw [dump_applyOps_false] at hdump
  simp only [Option.some.injEq, Prod.mk.injEq] at hdump
  obtain ⟨hblob, hchk2⟩ := hdump
  subst hblob
  subst hchk2
  have hany : chkArg.any
      (fun c => c != Keychain.computeChecksum (String.mk (contentsChars none
        ⟨iv, gcmEncrypt ⟨p, saltR⟩ iv (applyOps (Keychain.init p saltR) ops).kvs⟩
        saltR))) = false := by
    rcases hchk with h | h <;> subst h <;> simp
  have hdec : Keychain.decryptKVS ⟨p, saltR⟩
      ⟨iv, gcmEncrypt ⟨p, saltR⟩ iv (applyOps (Keychain.init p saltR) ops).kvs⟩
      = some (applyOps (Keychain.init p saltR) ops).kvs :=
    gcmDecrypt_encrypt _ _ _
  simp only [Keychain.load, parseContents_contentsChars, hany,
    Bool.false_eq_true, if_false, Keychain.deriveKey, hdec]
  have hmk : (applyOps (Keychain.init p saltR) ops).masterKey = some ⟨p, saltR⟩ := by
    rw [applyOps_masterKey]; rfl
  have hsalt : (applyOps (Keychain.init p saltR) ops).salt = some saltR := by
    rw [applyOps_salt]; rfl
  cases hK : applyOps (Keychain.init p saltR) ops
  rw [hK] at hmk hsalt
  simp only at hmk hsalt
  simp [hmk, hsalt]

/-- Loading any string other than the checksummed one, with that checksum
supplied, fails before any decryption: either the parse or the checksum
branch rejects it. -/
theorem load_other_blob (q : String) (b b2 : String) (h : b2 ≠ b) :
    Keychain.load q b2 (some (Keychain.computeChecksum b))
        = Except.error LoadError.parseError
    ∨ Keychain.load q b2 (some (Keychain.computeChecksum b))
        = Except.error LoadError.integrityError := by
  cases hp : parseContents b2 with
  | none =>
    left
    simp only [Keychain.load, hp]
  | some parsed =>
    right
    have hne : Keychain.computeChecksum b ≠ Keychain.computeChecksum b2 :=
      fun hc => h (computeChecksum_injective hc).symm
    have hany : (some (Keychain.computeChecksum b)).any
        (fun c => c != Keychain.computeChecksum b2) = true := by
      simpa using hne
    simp only [Keychain.load, hp, hany, if_true]

/-! ## Lookup after `set` -/

theorem lookupKvs_setEntry (kvs : KVS) (d v : String) :
    lookupKvs (setEntry kvs d v) d = some v := by
  induction kvs with
  | nil => simp [setEntry, lookupKvs]
  | cons e rest ih =>
    obtain ⟨d0, v0⟩ := e
    by_cases h : d0 = d
    · simp [setEntry, h, lookupKvs]
    · simp [setEntry, h, lookupKvs, ih]

theorem mem_fst_setEntry (kvs : KVS) (d v : String) :
    d ∈ (setEntry kvs d v).map Prod.fst := by
  induction kvs with
  | nil => simp [setEntry]
  | cons e rest ih =>
    obtain ⟨d0, v0⟩ := e
    by_cases h : d0 = d
    · simp [setEntry, h]
    · simp only [setEntry, h, if_false, List.map_cons, List.mem_cons]
      exact Or.inr ih

/-! ## Concrete material for witnesses and counterexamples -/

/-- A fixed 16-byte salt, standing for one outcome of
`crypto.getRandomValues(new Uint8Array(16))`. -/
def cSalt : List ℕ := [1, 2, 3, 4, 5, 6, 7, 8, 9, 10, 11, 12, 13, 14, 15, 16]

/-- A fixed 12-byte IV, standing for one outcome of
`crypto.getRandomValues(new Uint8Array(12))`. -/
def cIv : List ℕ := [21, 22, 23, 24, 25, 26, 27, 28, 29, 30, 31, 32]

/-- The spec's example scenario: `init("pw1")`, `set("mail.com","secret123")`,
`set("bank.com","xyz")`. -/
def exampleOps : List (String × String) :=
  [("mail.com", "secret123"), ("bank.com", "xyz")]

def exampleKeychain : Keychain := applyOps (Keychain.init "pw1" cSalt) exampleOps

/-- `(blob, checksum) = dump()` of the example keychain. -/
def exampleDump : String × ℕ := (exampleKeychain.dump false cIv).getD ("", 0)

theorem exampleDump_spec :
    exampleKeychain.dump false cIv = some (exampleDump.1, exampleDump.2) := by
  unfold exampleDump
  cases h : exampleKeychain.dump false cIv with
  | none =>
    exfalso
    revert h
    unfold exampleKeychain
    rw [dump_applyOps_false]
    simp
  | some pr => simp

/-! ## Length facts used for the raw-view (C7) argument -/

theorem strChars_length_ge (s : String) : 2 ≤ (strChars s).length := by
  simp only [strChars, List.length_cons, List.length_append]
  omega

theorem commaSep_head_le (x : List Char) (xs : List (List Char)) :
    x.length ≤ (commaSep (x :: xs)).length := by
  cases xs with
  | nil => simp [commaSep]
  | cons y ys =>
    have h : commaSep (x :: y :: ys) = x ++ ',' :: commaSep (y :: ys) := rfl
    rw [h]
    simp

theorem kvsChars_length_ne_four (kvs : KVS) : (kvsChars kvs).length ≠ 4 := by
  cases kvs with
  | nil => decide
  | cons e rest =>
    obtain ⟨d, v⟩ := e
    have hentry : 5 ≤ (strChars d ++ ':' :: strChars v).length := by
      have h1 := strChars_length_ge d
      have h2 := strChars_length_ge v
      simp only [List.length_append, List.length_cons]
      omega
    have hcs := commaSep_head_le (strChars d ++ ':' :: strChars v)
      (rest.map fun p => strChars p.1 ++ ':' :: strChars p.2)
    simp only [kvsChars, List.map_cons, List.length_cons, List.length_append,
      List.length_singleton]
    omega

/-! ### Round-trip of the string-literal parser on `JSON.stringify` output -/

theorem charEq_of_toNat (a b : Char) (h : a.toNat = b.toNat) : a = b := by
  apply Char.ext
  apply UInt32.ext_iff.mpr
  exact h

theorem hexVal_hexChar (d : ℕ) : hexVal (hexChar d) = some (d % 16) := by
  have hm : d % 16 < 16 := Nat.mod_lt _ (by omega)
  by_cases h : d % 16 < 10
  · have ht : (hexChar d).toNat = 48 + d % 16 := by
      simp [hexChar, h, mkCharSmall_toNat]
    simp only [hexVal, ht]
    rw [if_pos (by omega)]
    congr 1
    omega
  · have ht : (hexChar d).toNat = 87 + d % 16 := by
      simp [hexChar, h, mkCharSmall_toNat]
    simp only [hexVal, ht]
    rw [if_neg (by omega), if_pos (by omega)]
    congr 1
    omega

theorem escDecode_u (c : Char) (hlt : c.toNat < 32) (rest : List Char) :
    escDecode 'u' ('0' :: '0' :: hexChar (c.toNat / 16)
        :: hexChar (c.toNat % 16) :: rest)
      = some (c, rest) := by
  have h3 := hexVal_hexChar (c.toNat / 16)
  have h4 := hexVal_hexChar (c.toNat % 16)
  have e3 : c.toNat / 16 % 16 = c.toNat / 16 := Nat.mod_eq_of_lt (by omega)
  have e4 : c.toNat % 16 % 16 = c.toNat % 16 :=
    Nat.mod_eq_of_lt (Nat.lt_of_lt_of_le (Nat.mod_lt _ (by omega)) (by omega))
  rw [e3] at h3
  rw [e4] at h4
  have hstep : escDecode 'u' ('0' :: '0' :: hexChar (c.toNat / 16)
      :: hexChar (c.toNat % 16) :: rest)
      = (hexVal (hexChar (c.toNat / 16))).bind fun v3 =>
          (hexVal (hexChar (c.toNat % 16))).bind fun v4 =>
            (charDec (((0 * 16 + 0) * 16 + v3) * 16 + v4)).map
              fun c2 => (c2, rest) := rfl
  rw [hstep, h3, h4]
  simp only [Option.some_bind]
  have hv : ((0 * 16 + 0) * 16 + c.toNat / 16) * 16 + c.toNat % 16 = c.toNat := by
    omega
  rw [hv, charDec_toNat]
  rfl

theorem parseStrAux_escapeChar (c : Char) (rest : List Char) (f : ℕ) :
    parseStrAux (f + 1) (escapeChar c ++ rest)
      = (parseStrAux f rest).map fun p => (c :: p.1, p.2) := by
  by_cases hq : c = '"'
  · subst hq; rfl
  · by_cases hb : c = '\\'
    · subst hb; rfl
    · by_cases h8 : c.toNat = 8
      · have he : escapeChar c = ['\\', 'b'] := by simp [escapeChar, hq, hb, h8]
        have hc : mkCharSmall 8 (by omega) = c :=
          charEq_of_toNat _ _ (by rw [mkCharSmall_toNat, h8])
        have hstep : parseStrAux (f + 1) ('\\' :: 'b' :: rest)
            = (parseStrAux f rest).map
                fun p => (mkCharSmall 8 (by omega) :: p.1, p.2) := rfl
        rw [he, List.cons_append, List.cons_append, List.nil_append, hstep, hc]
      · by_cases h9 : c.toNat = 9
        · have he : escapeChar c = ['\\', 't'] := by
            simp [escapeChar, hq, hb, h8, h9]
          have hc : mkCharSmall 9 (by omega) = c :=
            charEq_of_toNat _ _ (by rw [mkCharSmall_toNat, h9])
          have hstep : parseStrAux (f + 1) ('\\' :: 't' :: rest)
              = (parseStrAux f rest).map
                  fun p => (mkCharSmall 9 (by omega) :: p.1, p.2) := rfl
          rw [he, List.cons_append, List.cons_append, List.nil_append, hstep, hc]
        · by_cases h10 : c.toNat = 10
          · have he : escapeChar c = ['\\', 'n'] := by
              simp [escapeChar, hq, hb, h8, h9, h10]
            have hc : mkCharSmall 10 (by omega) = c :=
              charEq_of_toNat _ _ (by rw [mkCharSmall_toNat, h10])
            have hstep : parseStrAux (f + 1) ('\\' :: 'n' :: rest)
                = (parseStrAux f rest).map
                    fun p => (mkCharSmall 10 (by omega) :: p.1, p.2) := rfl
            rw [he, List.cons_append, List.cons_append, List.nil_append, hstep, hc]
          · by_cases h12 : c.toNat = 12
            · have he : escapeChar c = ['\\', 'f'] := by
                simp [escapeChar, hq, hb, h8, h9, h10, h12]
              have hc : mkCharSmall 12 (by omega) = c :=
                charEq_of_toNat _ _ (by rw [mkCharSmall_toNat, h12])
              have hstep : parseStrAux (f + 1) ('\\' :: 'f' :: rest)
                  = (parseStrAux f rest).map
                      fun p => (mkCharSmall 12 (by omega) :: p.1, p.2) := rfl
              rw [he, List.cons_append, List.cons_append, List.nil_append,
                hstep, hc]
            · by_cases h13 : c.toNat = 13
              · have he : escapeChar c = ['\\', 'r'] := by
                  simp [escapeChar, hq, hb, h8, h9, h10, h12, h13]
                have hc : mkCharSmall 13 (by omega) = c :=
                  charEq_of_toNat _ _ (by rw [mkCharSmall_toNat, h13])
                have hstep : parseStrAux (f + 1) ('\\' :: 'r' :: rest)
                    = (parseStrAux f rest).map
                        fun p => (mkCharSmall 13 (by omega) :: p.1, p.2) := rfl
                rw [he, List.cons_append, List.cons_append, List.nil_append,
                  hstep, hc]
              · by_cases hlt : c.toNat < 32
                · have he : escapeChar c = ['\\', 'u', '0', '0',
                      hexChar (c.toNat / 16), hexChar (c.toNat % 16)] := by
                    simp [escapeChar, hq, hb, h8, h9, h10, h12, h13, hlt]
                  have hstep : parseStrAux (f + 1) ('\\' :: 'u' :: '0' :: '0'
                      :: hexChar (c.toNat / 16) :: hexChar (c.toNat % 16) :: rest)
                      = (escDecode 'u' ('0' :: '0' :: hexChar (c.toNat / 16)
                          :: hexChar (c.toNat % 16) :: rest)).bind fun q =>
                          (parseStrAux f q.2).map fun p => (q.1 :: p.1, p.2) := rfl
                  rw [he]
                  simp only [List.cons_append, List.nil_append, hstep,
                    escDecode_u c hlt rest, Option.some_bind]
                · have he : escapeChar c = [c] := by
                    simp [escapeChar, hq, hb, h8, h9, h10, h12, h13, hlt]
                  rw [he, List.cons_append, List.nil_append]
                  have hstep : parseStrAux (f + 1) (c :: rest)
                      = if c = '"' then some ([], rest)
                        else if c = '\\' then
                          (match rest with
                           | [] => none
                           | e :: rest2 =>
                             if e = '"' ∨ e = '\\' ∨ e = '/' then
                               (parseStrAux f rest2).map fun p => (e :: p.1, p.2)
                             else
                               (escDecode e rest2).bind fun q =>
                                 (parseStrAux f q.2).map
                                   fun p => (q.1 :: p.1, p.2))
                        else if c.toNat < 32 then none
                        else (parseStrAux f rest).map
                          fun p => (c :: p.1, p.2) := rfl
                  rw [hstep, if_neg hq, if_neg hb, if_neg hlt]

theorem length_le_flatMap_escapeChar (l : List Char) :
    l.length ≤ (l.flatMap escapeChar).length := by
  induction l with
  | nil => simp
  | cons c cs ih =>
    have hne : (escapeChar c).length ≥ 1 := by
      unfold escapeChar
      repeat' split
      all_goals simp
    simp only [List.flatMap_cons, List.length_append, List.length_cons]
    omega

theorem parseStrAux_strBody (s : List Char) (rest : List Char) :
    ∀ f, f ≥ s.length + 1 →
      parseStrAux f (s.flatMap escapeChar ++ '"' :: rest) = some (s, rest) := by
  induction s generalizing rest with
  | nil =>
    intro f hf
    match f, hf with
    | f + 1, _ => rfl
  | cons c cs ih =>
    intro f hf
    match f, hf with
    | f + 1, hf =>
      rw [List.flatMap_cons, List.append_assoc, parseStrAux_escapeChar,
        ih rest f (by simp at hf ⊢; omega)]
      rfl

theorem parseStr_strChars (s : String) (rest : List Char) :
    parseStr (strChars s ++ rest) = some (s, rest) := by
  have hser : strChars s ++ rest
      = '"' :: (s.data.flatMap escapeChar ++ '"' :: rest) := by
    simp [strChars, List.append_assoc]
  rw [hser]
  show (match parseStrAux (s.data.flatMap escapeChar ++ '"' :: rest).length
      (s.data.flatMap escapeChar ++ '"' :: rest) with
    | some (cs, r) => some (String.mk cs, r)
    | none => none) = some (s, rest)
  rw [parseStrAux_strBody s.data rest _ (by
    have := length_le_flatMap_escapeChar s.data
    simp only [List.length_append, List.length_cons]
    omega)]

theorem parseKvsAux_commaSep (l : KVS) (e : String × String) (rest : List Char) :
    ∀ f, f ≥ l.length + 1 →
      parseKvsAux f
          (commaSep ((e :: l).map fun p => strChars p.1 ++ ':' :: strChars p.2)
            ++ '}' :: rest)
        = some (e :: l, rest) := by
  induction l generalizing e with
  | nil =>
    intro f hf
    match f, hf with
    | f + 1, _ =>
      have hsh : (strChars e.1 ++ ':' :: strChars e.2) ++ '}' :: rest
          = strChars e.1 ++ (':' :: (strChars e.2 ++ '}' :: rest)) := by
        simp [List.append_assoc]
      simp only [List.map_cons, List.map_nil, commaSep, parseKvsAux, hsh,
        parseStr_strChars]
  | cons e2 l ih =>
    intro f hf
    match f, hf with
    | f + 1, hf =>
      have hcs : commaSep ((e :: e2 :: l).map
            fun p => strChars p.1 ++ ':' :: strChars p.2)
          = (strChars e.1 ++ ':' :: strChars e.2)
            ++ ',' :: commaSep ((e2 :: l).map
              fun p => strChars p.1 ++ ':' :: strChars p.2) := rfl
      have hsh : ((strChars e.1 ++ ':' :: strChars e.2)
            ++ ',' :: commaSep ((e2 :: l).map
              fun p => strChars p.1 ++ ':' :: strChars p.2)) ++ '}' :: rest
          = strChars e.1 ++ (':' :: (strChars e.2
            ++ (',' :: (commaSep ((e2 :: l).map
              fun p => strChars p.1 ++ ':' :: strChars p.2) ++ '}' :: rest)))) := by
        simp [List.append_assoc]
      rw [hcs, hsh]
      simp only [parseKvsAux, parseStr_strChars]
      rw [ih e2 f (by simp at hf ⊢; omega)]

theorem commaSep_cons_decompose (x : List Char) (xs : List (List Char)) :
    ∃ t, commaSep (x :: xs) = x ++ t := by
  cases xs with
  | nil => exact ⟨[], by simp [commaSep]⟩
  | cons y ys => exact ⟨',' :: commaSep (y :: ys), rfl⟩

theorem commaSep_length_ge (xs : List (List Char))
    (h : ∀ x ∈ xs, 1 ≤ x.length) :
    xs.length ≤ (commaSep xs).length + 1 := by
  induction xs with
  | nil => simp
  | cons x ys ih =>
    cases ys with
    | nil =>
      have := h x (by simp)
      have hcs : commaSep [x] = x := rfl
      rw [hcs]
      simp only [List.length_cons, List.length_nil]
      omega
    | cons y ys2 =>
      have hx := h x (by simp)
      have hr := ih (fun a ha => h a (by simp [List.mem_cons] at ha ⊢; tauto))
      have hcs : commaSep (x :: y :: ys2) = x ++ ',' :: commaSep (y :: ys2) := rfl
      rw [hcs]
      simp only [List.length_append, List.length_cons] at hr ⊢
      omega

theorem parseKvsField_kvsChars (kvs : KVS) (rest : List Char) :
    parseKvsField (kvsChars kvs ++ rest) = some (some kvs, rest) := by
  have hser : kvsChars kvs ++ rest
      = '{' :: (commaSep (kvs.map fun p => strChars p.1 ++ ':' :: strChars p.2)
          ++ '}' :: rest) := by
    simp [kvsChars, List.append_assoc]
  rw [hser]
  cases kvs with
  | nil => simp [parseKvsField, commaSep]
  | cons e l =>
    obtain ⟨t, ht⟩ := commaSep_cons_decompose
      (strChars e.1 ++ ':' :: strChars e.2)
      (l.map fun p => strChars p.1 ++ ':' :: strChars p.2)
    have hmap : (e :: l).map (fun p => strChars p.1 ++ ':' :: strChars p.2)
        = (strChars e.1 ++ ':' :: strChars e.2)
          :: l.map (fun p => strChars p.1 ++ ':' :: strChars p.2) := rfl
    have hq : commaSep ((e :: l).map fun p => strChars p.1 ++ ':' :: strChars p.2)
          ++ '}' :: rest
        = '"' :: ((strChars e.1).tail ++ ':' :: strChars e.2 ++ (t ++ '}' :: rest)) := by
      rw [hmap, ht]
      simp [strChars, List.append_assoc]
    simp only [parseKvsField]
    rw [hq]
    have hne : (('"' : Char) :: ((strChars e.1).tail ++ ':' :: strChars e.2
        ++ (t ++ '}' :: rest))).head? ≠ some '}' := by
      simp only [List.head?_cons, ne_eq, Option.some.injEq]
      decide
    rw [if_neg hne]
    rw [← hq]
    have hlen : (commaSep ((e :: l).map
          fun p => strChars p.1 ++ ':' :: strChars p.2) ++ '}' :: rest).length
        ≥ l.length + 1 := by
      have h1 := commaSep_length_ge
        ((e :: l).map fun p => strChars p.1 ++ ':' :: strChars p.2)
        (by
          intro x hx
          simp only [List.mem_map] at hx
          obtain ⟨p, _, rfl⟩ := hx
          simp [strChars])
      simp only [List.length_map, List.length_cons, List.length_append] at h1 ⊢
      omega
    rw [parseKvsAux_commaSep l e rest _ hlen]

theorem parseContents_contentsChars_some (kvs : KVS) (enc : EncRec)
    (salt : List ℕ) :
    parseContents (String.mk (contentsChars (some kvs) enc salt))
      = some ⟨some kvs, enc, salt⟩ := by
  have h0 : contentsChars (some kvs) enc salt
      = ['{', '\"', 'k', 'v', 's', '\"', ':']
        ++ (kvsChars kvs
        ++ ([',', '\"', 'e', 'n', 'c', 'r', 'y', 'p', 't', 'e', 'd', 'K', 'V',
              'S', '\"', ':', '{', '\"', 'i', 'v', '\"', ':']
        ++ (serNats enc.iv
        ++ ([',', '\"', 'e', 'n', 'c', 'r', 'y', 'p', 't', 'e', 'd', 'K', 'V',
              'S', '\"', ':']
        ++ (serNats enc.encryptedKVS
        ++ (['}', ',', '\"', 's', 'a', 'l', 't', '\"', ':']
        ++ (serNats salt ++ ['}']))))))) := by
    simp [contentsChars, List.append_assoc]
  simp only [parseContents, h0, expectLit_append, parseKvsField_kvsChars,
    parseNatList_serNats]

/-- `JSON.parse` recovers the fields of any serialised dump contents,
with or without the raw view. -/
theorem parseContents_contentsChars_any (okvs : Option KVS) (enc : EncRec)
    (salt : List ℕ) :
    parseContents (String.mk (contentsChars okvs enc salt))
      = some ⟨okvs, enc, salt⟩ := by
  cases okvs with
  | none => exact parseContents_contentsChars enc salt
  | some kvs => exact parseContents_contentsChars_some kvs enc salt

/-- `load` on a genuine serialised blob, once the checksum gate passes,
reduces to re-deriving the key from the stored salt and decrypting. -/
theorem load_contents_blob (q : String) (okvs : Option KVS) (enc : EncRec)
    (saltS : List ℕ) (chkArg : Option ℕ)
    (hany : chkArg.any (fun c =>
        c != Keychain.computeChecksum
          (String.mk (contentsChars okvs enc saltS))) = false) :
    Keychain.load q (String.mk (contentsChars okvs enc saltS)) chkArg
      = match Keychain.decryptKVS ⟨q, saltS⟩ enc with
        | some kvs => Except.ok ⟨kvs, some ⟨q, saltS⟩, some saltS⟩
        | none => Except.error LoadError.wrongPassword := by
  simp only [Keychain.load, parseContents_contentsChars_any, hany,
    Bool.false_eq_true, if_false, Keychain.deriveKey]

/-- A genuine dump — raw view included or not — loads back to the identical
keychain, whether the caller supplies the matching checksum or a falsy one. -/
theorem load_genuine_inc (p : String) (saltR iv : List ℕ)
    (ops : List (String × String)) (includeKVS : Bool) (blob : String) (chk : ℕ)
    (hdump : (applyOps (Keychain.init p saltR) ops).dump includeKVS iv
      = some (blob, chk))
    (chkArg : Option ℕ) (hchk : chkArg = none ∨ chkArg = some chk) :
    Keychain.load p blob chkArg
      = Except.ok (applyOps (Keychain.init p saltR) ops) := by
  rw [dump_applyOps] at hdump
  simp only [Option.some.injEq, Prod.mk.injEq] at hdump
  obtain ⟨hblob, hchk2⟩ := hdump
  subst hblob
  subst hchk2
  rw [load_contents_blob p _ _ _ chkArg
    (by rcases hchk with h | h <;> subst h <;> simp)]
  have hdec : Keychain.decryptKVS ⟨p, saltR⟩
      ⟨iv, gcmEncrypt ⟨p, saltR⟩ iv (applyOps (Keychain.init p saltR) ops).kvs⟩
      = some (applyOps (Keychain.init p saltR) ops).kvs :=
    gcmDecrypt_encrypt _ _ _
  rw [hdec]
  have hmk : (applyOps (Keychain.init p saltR) ops).masterKey
      = some ⟨p, saltR⟩ := by
    rw [applyOps_masterKey]; rfl
  have hsalt : (applyOps (Keychain.init p saltR) ops).salt = some saltR := by
    rw [applyOps_salt]; rfl
  cases hK : applyOps (Keychain.init p saltR) ops
  rw [hK] at hmk hsalt
  simp only at hmk hsalt
  simp [hmk, hsalt]

/-! ## The claims -/

/-- **C1, counterexample.**  The claim says every single-byte modification of
a dumped blob makes `load` fail with `IntegrityError` (the checksum branch).
But `load` runs `JSON.parse(contents)` (line 21) *before* the checksum
comparison (line 24), so a modification that breaks JSON syntax — here,
flipping byte 0 of the example dump from `{` to `}` — makes `load` throw the
parse `SyntaxError` instead of reaching the checksum branch. -/
theorem c1_counterexample :
    Keychain.load "pw1" (flipAt exampleDump.1 0 '}') (some exampleDump.2)
        = Except.error LoadError.parseError
    ∧ flipAt exampleDump.1 0 '}' ≠ exampleDump.1
    ∧ LoadError.parseError ≠ LoadError.integrityError :=
  ⟨rfl, by decide, by decide⟩

/-- **C1, amended.**  For every dumped `(blob, checksum)` pair and every
single-byte modification of the blob, `load` with the modified blob and the
original checksum fails before any decryption is attempted — with
`IntegrityError` (the checksum branch) when the modified blob still parses as
JSON, and with the JSON parse error otherwise (the parse runs first in the
source).  Either way the result is an error, so no keychain (partial or
otherwise) is exposed and the decryption step is never reached. -/
theorem c1_tamper_fails_before_decryption (p q : String) (saltR iv : List ℕ)
    (ops : List (String × String)) (includeKVS : Bool) (blob : String)
    (chk : ℕ) (i : ℕ) (c : Char)
    (hdump : (applyOps (Keychain.init p saltR) ops).dump includeKVS iv
      = some (blob, chk))
    (hmod : flipAt blob i c ≠ blob) :
    Keychain.load q (flipAt blob i c) (some chk)
        = Except.error LoadError.parseError
    ∨ Keychain.load q (flipAt blob i c) (some chk)
        = Except.error LoadError.integrityError := by
  rw [dump_applyOps] at hdump
  simp only [Option.some.injEq, Prod.mk.injEq] at hdump
  obtain ⟨hblob, hchk⟩ := hdump
  subst hchk
  subst hblob
  exact load_other_blob q _ _ hmod

/-- **C1, witness** for the amended theorem, at the example dump with the
byte-0 flip. -/
theorem c1_witness :
    Keychain.load "pw2" (flipAt exampleDump.1 0 '}') (some exampleDump.2)
        = Except.error LoadError.parseError
    ∨ Keychain.load "pw2" (flipAt exampleDump.1 0 '}') (some exampleDump.2)
        = Except.error LoadError.integrityError :=
  c1_tamper_fails_before_decryption "pw1" "pw2" cSalt cIv exampleOps false
    exampleDump.1 exampleDump.2 0 '}' exampleDump_spec (by decide)

/-- **C2.**  For every password, every sequence of `set` operations after
`init`, and every randomness outcome: if `(blob, checksum) = dump()` then
`load(password, blob, checksum)` succeeds and returns a keychain *equal* to
the original — in particular `get(domain)` agrees with the original on every
domain (set before the dump or not). -/
theorem c2_dump_load_roundtrip (p : String) (saltR iv : List ℕ)
    (ops : List (String × String)) (blob : String) (chk : ℕ)
    (hdump : (applyOps (Keychain.init p saltR) ops).dump false iv
      = some (blob, chk)) :
    Keychain.load p blob (some chk)
      = Except.ok (applyOps (Keychain.init p saltR) ops) :=
  load_genuine p saltR iv ops blob chk hdump (some chk) (Or.inr rfl)

/-- **C2, witness**: the spec's example scenario
(`init("pw1")`, `set("mail.com","secret123")`, `set("bank.com","xyz")`)
round-trips through `dump`/`load`. -/
theorem c2_witness :
    Keychain.load "pw1" exampleDump.1 (some exampleDump.2)
      = Except.ok exampleKeychain :=
  c2_dump_load_roundtrip "pw1" cSalt cIv exampleOps
    exampleDump.1 exampleDump.2 exampleDump_spec

/-- **C3.**  Loading a dumped blob with its correct checksum but a password
different from the one it was dumped under always fails with
`WrongPasswordOrCorruptData` (`"Failed to load Keychain: Incorrect
password"`): the re-derived key differs, so the AES-GCM authentication of
`decryptKVS` fails, and the `catch` turns that into the wrong-password
error; no keychain containing garbage plaintext is ever returned. -/
theorem c3_wrong_password (p q : String) (saltR iv : List ℕ)
    (ops : List (String × String)) (includeKVS : Bool) (blob : String) (chk : ℕ)
    (hpq : q ≠ p)
    (hdump : (applyOps (Keychain.init p saltR) ops).dump includeKVS iv
      = some (blob, chk)) :
    Keychain.load q blob (some chk) = Except.error LoadError.wrongPassword := by
  rw [dump_applyOps] at hdump
  simp only [Option.some.injEq, Prod.mk.injEq] at hdump
  obtain ⟨hblob, hchk⟩ := hdump
  subst hchk
  subst hblob
  rw [load_contents_blob q _ _ _ _ (by simp)]
  have hdec : Keychain.decryptKVS ⟨q, saltR⟩
      ⟨iv, gcmEncrypt ⟨p, saltR⟩ iv (applyOps (Keychain.init p saltR) ops).kvs⟩
      = none :=
    gcmDecrypt_wrong_password p q saltR iv _ hpq
  rw [hdec]

/-- **C3, witness**: `load("pw2", blob, sum)` on the example dump (made
under `"pw1"`) fails with the wrong-password error. -/
theorem c3_witness :
    Keychain.load "pw2" exampleDump.1 (some exampleDump.2)
      = Except.error LoadError.wrongPassword :=
  c3_wrong_password "pw1" "pw2" cSalt cIv exampleOps false
    exampleDump.1 exampleDump.2 (by decide) exampleDump_spec

/-- **C4, counterexample.**  The claim says entries are stored (and appear in
the serialised form) under an HMAC-class keyed tag of the domain, not the
domain string itself.  In the code `set` executes `this.kvs[url] = password`:
after `set("mail.com","x")` the store's key is the literal string
`"mail.com"` (and the stored value is the plaintext credential); no tag
function exists anywhere in the source. -/
theorem c4_counterexample :
    ((Keychain.init "pw" cSalt).set "mail.com" "x").kvs = [("mail.com", "x")] :=
  rfl

/-- **C4, amended.**  For every keychain and every `set(domain, value)`, the
entry is stored under the raw domain string itself: looking the store up by
the domain string finds the value, and the domain string occurs verbatim as
a key of the kvs.  (Domain names still do not appear in an
`includeKVS = false` dump, but only because the whole kvs is encrypted as a
single blob — not because of any per-domain tagging.) -/
theorem c4_stored_under_raw_domain (k : Keychain) (d v : String) :
    lookupKvs (k.set d v).kvs d = some v
    ∧ d ∈ (k.set d v).kvs.map Prod.fst :=
  ⟨lookupKvs_setEntry k.kvs d v, mem_fst_setEntry k.kvs d v⟩

/-- **C5, counterexample.**  The claim says values of different lengths (both
≤ 64 bytes) encrypt to ciphertexts of equal length via fixed-size padding.
The code pads nothing and has no per-entry cipher: it AES-GCM-encrypts
`JSON.stringify(this.kvs)` whole, so storing `"a"` versus `"ab"` under the
same domain yields ciphertexts of different lengths (25 vs 26 here). -/
theorem c5_counterexample :
    (Keychain.encryptKVS ⟨"pw", cSalt⟩ cIv [("d", "a")]).encryptedKVS.length
      ≠ (Keychain.encryptKVS ⟨"pw", cSalt⟩ cIv [("d", "ab")]).encryptedKVS.length := by
  decide

/-- **C5, amended.**  Ciphertext length is `(serialised kvs length) + 16`
(AES-GCM adds only its 16-byte tag): it grows with the stored plaintext
rather than being a constant; there is no padding step. -/
theorem c5_ciphertext_length (key : Key) (iv : List ℕ) (kvs : KVS) :
    (Keychain.encryptKVS key iv kvs).encryptedKVS.length
      = (kvsChars kvs).length + 16 := by
  show (gcmEncrypt key iv kvs).length = _
  rw [gcmEncrypt_length]
  simp [ptBytes]

/-- **C6.**  `load` guards the checksum comparison with
`if (checksum && ...)`: a falsy checksum argument (empty string /
`null` / `undefined`, modelled as `none`) disables integrity verification
entirely — such a load can never fail with `IntegrityError`, and on any
well-formed blob with the matching password it simply returns the keychain,
no checksum having been compared. -/
theorem c6_falsy_checksum_skips_verification :
    (∀ (p blob : String),
        Keychain.load p blob none ≠ Except.error LoadError.integrityError)
    ∧ ∀ (p : String) (saltR iv : List ℕ) (ops : List (String × String))
        (includeKVS : Bool) (blob : String) (chk : ℕ),
        (applyOps (Keychain.init p saltR) ops).dump includeKVS iv
          = some (blob, chk) →
        Keychain.load p blob none
          = Except.ok (applyOps (Keychain.init p saltR) ops) := by
  constructor
  · intro p blob
    cases hp : parseContents blob with
    | none => simp [Keychain.load, hp]
    | some parsed =>
      cases hdec : Keychain.decryptKVS
          (Keychain.deriveKey p (some parsed.salt) []).1 parsed.encryptedKVS with
      | none => simp [Keychain.load, hp, hdec]
      | some kvs => simp [Keychain.load, hp, hdec]
  · intro p saltR iv ops includeKVS blob chk hdump
    exact load_genuine_inc p saltR iv ops includeKVS blob chk hdump none
      (Or.inl rfl)

/-- **C6, witness**: loading the example dump with a falsy checksum argument
succeeds without any integrity verification. -/
theorem c6_witness :
    Keychain.load "pw1" exampleDump.1 none = Except.ok exampleKeychain :=
  c6_falsy_checksum_skips_verification.2 "pw1" cSalt cIv exampleOps false
    exampleDump.1 exampleDump.2 exampleDump_spec

/-- **C7, counterexample.**  The claim says the `includeKVS` raw view is
never part of the checksummed bytes.  In `dump` the raw view is the `kvs`
field of the very object that is stringified, and the checksum is computed
over that string: dumping the example keychain with and without the raw
view yields different checksums. -/
theorem c7_counterexample :
    (exampleKeychain.dump true cIv).map Prod.snd
      ≠ (exampleKeychain.dump false cIv).map Prod.snd := by
  decide

/-- **C7, amended.**  For every kvs, encrypted record and salt, the
serialised contents with the raw view (`kvs` field set) and without it
(`kvs: null`) are different strings, and — the checksum being computed over
the full serialised contents — their checksums differ too.  The raw view is
therefore *inside* the checksum boundary whenever it is requested. -/
theorem c7_raw_view_inside_checksum (kvs : KVS) (enc : EncRec) (salt : List ℕ) :
    String.mk (contentsChars (some kvs) enc salt)
        ≠ String.mk (contentsChars none enc salt)
    ∧ Keychain.computeChecksum (String.mk (contentsChars (some kvs) enc salt))
        ≠ Keychain.computeChecksum (String.mk (contentsChars none enc salt)) := by
  have hne : String.mk (contentsChars (some kvs) enc salt)
      ≠ String.mk (contentsChars none enc salt) := by
    intro h
    have hd : contentsChars (some kvs) enc salt = contentsChars none enc salt :=
      congrArg String.data h
    have hl := congrArg List.length hd
    simp only [contentsChars, List.length_append, List.length_cons,
      List.length_nil, List.length_singleton] at hl
    have h4 := kvsChars_length_ne_four kvs
    omega
  exact ⟨hne, fun h => hne (computeChecksum_injective h)⟩

/-- **C8, counterexample.**  The claim says `set`/`get`/`remove` on an
uninitialised instance fail with `NotInitialized`.  No such check exists:
on a fresh `new Keychain()` (`masterKey = null`, `salt = null`), `set`
stores into the in-memory map and `get` reads it back. -/
theorem c8_counterexample :
    (Keychain.new.set "a" "b").get "a" = some "b"
    ∧ Keychain.new.masterKey = none :=
  ⟨rfl, rfl⟩

/-- **C8, amended.**  `set`, `get` and `remove` perform no initialisation
check and never fail: on the uninitialised `new Keychain()` they operate
directly on the (empty) kvs map — `set` then `get` returns the stored value
(for non-empty values), `remove` reports absence/presence, exactly as on an
initialised instance.  (Only `dump` fails on an uninitialised instance,
since it touches `masterKey`/`salt`.) -/
theorem c8_no_initialization_check (d v : String) (hv : v ≠ "") :
    (Keychain.new.set d v).get d = some v
    ∧ (Keychain.new.remove d).2 = false
    ∧ ((Keychain.new.set d v).remove d).2 = true
    ∧ Keychain.new.get d = none
    ∧ Keychain.new.dump false [] = none := by
  refine ⟨?_, rfl, ?_, rfl, rfl⟩
  · simp [Keychain.set, Keychain.get, Keychain.new, setEntry, lookupKvs, hv]
  · simp [Keychain.set, Keychain.remove, Keychain.new, setEntry, lookupKvs]

/-- **C8, witness** at `d = "a"`, `v = "b"`. -/
theorem c8_witness :
    (Keychain.new.set "a" "b").get "a" = some "b"
    ∧ (Keychain.new.remove "a").2 = false
    ∧ ((Keychain.new.set "a" "b").remove "a").2 = true
    ∧ Keychain.new.get "a" = none
    ∧ Keychain.new.dump false [] = none :=
  c8_no_initialization_check "a" "b" (by decide)

/-- **C9, counterexample.**  The claim says key derivation (hence `init`)
fails with `InvalidInput` on an empty password or a wrong-length salt.
`deriveKey` validates nothing: `init("")` succeeds and produces a normally
initialised keychain (PBKDF2 accepts an empty password; `salt || random`
only replaces a *falsy* salt). -/
theorem c9_counterexample :
    Keychain.init "" cSalt
      = { kvs := [], masterKey := some ⟨"", cSalt⟩, salt := some cSalt } :=
  rfl

/-- **C9, amended.**  Key derivation performs no input validation and never
fails: every password (the empty string included) and every supplied salt
(of any length) is accepted; the result is deterministic in
`(password, salt)` — the randomness oracle is consulted only when no salt is
supplied — and `init` always yields an initialised, dumpable keychain. -/
theorem c9_no_input_validation (p : String) (s saltR1 saltR2 iv : List ℕ) :
    Keychain.deriveKey p (some s) saltR1 = Keychain.deriveKey p (some s) saltR2
    ∧ Keychain.deriveKey p (some s) saltR1 = (⟨p, s⟩, s)
    ∧ (Keychain.init p saltR1).masterKey = some ⟨p, saltR1⟩
    ∧ (Keychain.init p saltR1).salt = some saltR1
    ∧ ((Keychain.init p saltR1).dump false iv).isSome = true := by
  refine ⟨rfl, rfl, rfl, rfl, ?_⟩
  rw [show Keychain.init p saltR1 = applyOps (Keychain.init p saltR1) [] from rfl,
    dump_applyOps_false]
  rfl

/-- **C10.**  `get` returns `this.kvs[url] || null`: storing the empty
string as a credential makes the stored (falsy) value indistinguishable at
the `get` interface from an absent domain — after `set(domain, "")`,
`get(domain)` returns the `NotFound` sentinel `null`. -/
theorem c10_empty_value_reads_as_absent (k : Keychain) (d : String) :
    (k.set d "").get d = none := by
  have h := lookupKvs_setEntry k.kvs d ""
  simp only [Keychain.get, Keychain.set]
  rw [h]
  simp
